import Mathlib

/-!
Verification of the mprovision provisioning-profile pipeline.

Shallow embedding of the repository's core code:
* `crates/lib/src/plist_extractor.rs` — payload locator (`find`)
* `crates/lib/src/profile.rs` — `Info::from_xml_data`, `Info::contains`,
  `Info::bundle_id`, `Profile::from_file`
* `crates/lib/src/lib.rs` — `is_mobileprovision`, `filter`
* `crates/cli/src/main.rs` — `extract`, `remove`
* `src/lib.rs` (historical work-stealing version) — `find_plist`

Byte buffers are `List Nat`; Rust strings are `List Char`; `SystemTime`
and `plist::Date` are modelled as `Int` instants.  A Rust function that
can panic is embedded in `Except Unit`, the `.error ()` value standing
for the panic/abort of the process.
-/

set_option maxRecDepth 4000

/-- The window of `data` starting at `i` equals `needle` (an occurrence of
`needle` at position `i`; for nonempty `needle` this forces
`i + needle.length ≤ data.length`). -/
def OccursAt {α : Type} (data needle : List α) (i : Nat) : Prop :=
  (data.drop i).take needle.length = needle

instance {α : Type} [DecidableEq α] (data needle : List α) (i : Nat) :
    Decidable (OccursAt data needle i) :=
  inferInstanceAs (Decidable ((data.drop i).take needle.length = needle))

/-- `i` is the first occurrence of `needle` in `data`. -/
def FirstOcc {α : Type} (data needle : List α) (i : Nat) : Prop :=
  OccursAt data needle i ∧ ∀ j < i, ¬ OccursAt data needle j

/-- `i` is the last occurrence of `needle` in `data`. -/
def LastOcc {α : Type} (data needle : List α) (i : Nat) : Prop :=
  OccursAt data needle i ∧ ∀ j, i < j → ¬ OccursAt data needle j

/-- Scan positions `0..n`, returning the least position at which `needle`
occurs.  Auxiliary for `findSub`. -/
def findAux {α : Type} [DecidableEq α] (data needle : List α) : Nat → Option Nat
  | 0 => if (data.drop 0).take needle.length = needle then some 0 else none
  | i + 1 =>
    match findAux data needle i with
    | some j => some j
    | none =>
      if (data.drop (i + 1)).take needle.length = needle then some (i + 1) else none

/-- First occurrence of `needle` in `data`.  Embeds both `memmem::find`
(used by `crates/lib/src/plist_extractor.rs`) and the historical helper
`find` of `src/lib.rs` (a linear scan returning the least matching index);
for nonempty needles the two have identical semantics. -/
def findSub {α : Type} [DecidableEq α] (data needle : List α) : Option Nat :=
  findAux data needle data.length

/-- Scan positions `n..0`, returning the greatest position at which
`needle` occurs.  Auxiliary for `rfindSub`. -/
def rfindAux {α : Type} [DecidableEq α] (data needle : List α) : Nat → Option Nat
  | 0 => if (data.drop 0).take needle.length = needle then some 0 else none
  | i + 1 =>
    if (data.drop (i + 1)).take needle.length = needle then some (i + 1)
    else rfindAux data needle i

/-- Last occurrence of `needle` in `data`.  Embeds `memmem::rfind` used by
`crates/lib/src/plist_extractor.rs`. -/
def rfindSub {α : Type} [DecidableEq α] (data needle : List α) : Option Nat :=
  rfindAux data needle data.length

/-- The bytes of the start marker `PLIST_PREFIX = b"<?xml version="`. -/
def startMarker : List Nat := "<?xml version=".data.map Char.toNat

/-- The bytes of the end marker `PLIST_SUFFIX = b"</plist>"`. -/
def endMarker : List Nat := "</plist>".data.map Char.toNat

/-- Rust slicing `&data[s..e]` (defined value; the in-bounds conditions
`s ≤ e ≤ data.length` are enforced at the call sites that model the
panicking slice operator). -/
def sliceBytes (data : List Nat) (s e : Nat) : List Nat :=
  (data.drop s).take (e - s)

/-- Embedding of `plist_extractor::find` (crates/lib/src/plist_extractor.rs):
first occurrence of the start marker, last occurrence of the end marker
shifted past its end, a bounds check `end_i <= data.len()`, then the slice
`&data[start_i..end_i]`.  The slice panics when `start_i > end_i`, which the
source does not guard against; that panic is the `.error ()` outcome. -/
def plistExtractor.find (data : List Nat) : Except Unit (Option (List Nat)) :=
  match findSub data startMarker,
      (rfindSub data endMarker).map (fun i => i + endMarker.length) with
  | some s, some e =>
    if e ≤ data.length then
      if s ≤ e then .ok (some (sliceBytes data s e)) else .error ()
    else .ok none
  | _, _ => .ok none

/-- Embedding of the historical `find_plist` (src/lib.rs, work-stealing era):
it uses the FIRST occurrence of the end marker (plain `find`, not `rfind`)
and the strict bounds check `end_i < data.len()`. -/
def oldFindPlist (data : List Nat) : Except Unit (Option (List Nat)) :=
  match findSub data startMarker,
      (findSub data endMarker).map (fun i => i + endMarker.length) with
  | some s, some e =>
    if e < data.length then
      if s ≤ e then .ok (some (sliceBytes data s e)) else .error ()
    else .ok none
  | _, _ => .ok none

deriving instance DecidableEq for Except

/-- The `Entitlements` dictionary deserialized by serde
(crates/lib/src/profile.rs): its single required key is
`application-identifier`. -/
structure Entitlements where
  app_identifier : List Char
deriving DecidableEq

/-- The serde target `InfoDef` (crates/lib/src/profile.rs): the five
required keys `UUID`, `Name`, `Entitlements` (with its nested
`application-identifier`), `CreationDate`, `ExpirationDate`.  Serde's
deserialization of this struct is all-or-nothing: a value of this type
exists only with every field present and well-typed. -/
structure InfoDef where
  uuid : List Char
  name : List Char
  entitlements : Entitlements
  creation_date : Int
  expiration_date : Int
deriving DecidableEq

/-- The provisioning-profile record `Info` (crates/lib/src/profile.rs). -/
structure Info where
  uuid : List Char
  name : List Char
  app_identifier : List Char
  creation_date : Int
  expiration_date : Int
deriving DecidableEq

/-- A `Profile` pairs an `Info` with the path it was read from
(crates/lib/src/profile.rs). -/
structure Profile where
  path : List Char
  info : Info
deriving DecidableEq

/-- The crate error type (crates/lib/src/error.rs): `Io(io::Error)` is
modelled with an abstract OS error code, `Own(String)` carries its
message.  The source constructors are named `Io` and `Own`. -/
inductive MpError where
  | ioError : Nat → MpError
  | own : List Char → MpError
deriving DecidableEq

/-- The external plist XML parser is a parameter of the embedding: a
function from the located payload bytes to `some InfoDef` (deserialization
succeeded, every required key present and well-typed) or `none`
(`plist::from_reader_xml(..).ok()` was `None`).  Nothing in this
development fixes its behaviour. -/
def PlistParser : Type := List Nat → Option InfoDef

/-- Embedding of `Info::from_xml_data` (crates/lib/src/profile.rs):
`plist_extractor::find(data).and_then(|xml| parse(xml).map(..))`, copying
the five parsed fields into an `Info`.  A panic of the locator
propagates. -/
def Info.from_xml_data (parse : PlistParser) (data : List Nat) :
    Except Unit (Option Info) :=
  match plistExtractor.find data with
  | .error u => .error u
  | .ok none => .ok none
  | .ok (some xml) =>
    .ok ((parse xml).map (fun d =>
      ⟨d.uuid, d.name, d.entitlements.app_identifier,
        d.creation_date, d.expiration_date⟩))

/-- The message of the `Error::Own` produced when decoding a file fails
(crates/lib/src/profile.rs). -/
def parseFailMsg : List Char := "Couldn't parse file.".data

/-- A filesystem, mapping a path to its byte content or to an OS error
code (the model of `File::open(path)?.read_to_end(&mut buf)?`). -/
def FileSystem : Type := List Char → Except Nat (List Nat)

/-- Embedding of `Profile::from_file` (crates/lib/src/profile.rs): read
the file (surfacing the I/O error), decode it with `Info::from_xml_data`
(`None` becomes `Error::Own("Couldn't parse file.")`), and pair the
decoded info with the path.  The outer `Except Unit` is the panic
effect. -/
def Profile.from_file (fs : FileSystem) (parse : PlistParser) (path : List Char) :
    Except Unit (Except MpError Profile) :=
  match fs path with
  | .error e => .ok (.error (.ioError e))
  | .ok buf =>
    match Info.from_xml_data parse buf with
    | .error u => .error u
    | .ok none => .ok (.error (.own parseFailMsg))
    | .ok (some info) => .ok (.ok ⟨path, info⟩)

/-- Boolean success test for the panic effect. -/
def exceptOk {ε α : Type} : Except ε α → Bool
  | .ok _ => true
  | .error _ => false

/-- Embedding of `filter` (crates/lib/src/lib.rs): the data-parallel
pipeline `paths.par_iter().map(Profile::from_file).filter_map(Result::ok)
.filter(f).collect()`, given by its sequential denotation over the
enumerated path list (rayon's collect of an indexed parallel iterator
preserves the enumeration order; order-independence of the resulting set
is proved separately).  A panic in any unit of work aborts the scan. -/
def filter (fs : FileSystem) (parse : PlistParser) (f : Profile → Bool) :
    List (List Char) → Except Unit (List Profile)
  | [] => .ok []
  | p :: rest =>
    match Profile.from_file fs parse p, filter fs parse f rest with
    | .ok (.ok pr), .ok acc => .ok (if f pr then pr :: acc else acc)
    | .ok (.error _), .ok acc => .ok acc
    | _, _ => .error ()

/-- The per-path contribution of `filter`: the kept profile, if the file
decodes and satisfies the predicate; `none` on decode or read failure or
when the predicate rejects. -/
def keep (fs : FileSystem) (parse : PlistParser) (f : Profile → Bool)
    (p : List Char) : Option Profile :=
  match Profile.from_file fs parse p with
  | .ok (.ok pr) => if f pr then some pr else none
  | _ => none

/-- The characters of `l` strictly after the last occurrence of `c`
(all of `l` if `c` does not occur). -/
def splitAfterLast (c : Char) (l : List Char) : List Char :=
  (l.reverse.takeWhile (fun a => a ≠ c)).reverse

/-- Model of `Path::file_name`: the component after the last `/`; `none`
for an empty component and for the special components `.` and `..`. -/
def fileNameOpt (p : List Char) : Option (List Char) :=
  let n := splitAfterLast '/' p
  if n = [] ∨ n = ['.'] ∨ n = ['.', '.'] then none else some n

/-- Model of `Path::extension`: `none` without a file name, `none` when
the file name has no `.` besides a leading one (hidden files), otherwise
the portion of the file name after its final `.`. -/
def extOf (p : List Char) : Option (List Char) :=
  match fileNameOpt p with
  | none => none
  | some n =>
    let body := match n with
      | '.' :: t => t
      | _ => n
    if '.' ∈ body then some (splitAfterLast '.' n) else none

/-- The profile file extension `EXT_MOBILEPROVISION`
(crates/lib/src/lib.rs). -/
def extMobileprovision : List Char := "mobileprovision".data

/-- The literal `".mobileprovision"` appended to a uuid by `extract`
(crates/cli/src/main.rs). -/
def dotMobileprovision : List Char := ".mobileprovision".data

/-- Embedding of `is_mobileprovision` (crates/lib/src/lib.rs):
`file_path.extension().and_then(|ext| ext.to_str()) == Some(EXT)`. -/
def is_mobileprovision (p : List Char) : Bool :=
  extOf p == some extMobileprovision

/-- Model of `std::fs::remove_file` over a filesystem listed as the paths
it currently contains: deletes the path when present, otherwise fails
with an OS "not found" error. -/
def removeFile (fsPaths : List (List Char)) (p : List Char) :
    Except MpError (List (List Char)) :=
  if p ∈ fsPaths then .ok (fsPaths.erase p) else .error (.ioError 2)

/-- Model of `trash::delete`: same visible filesystem effect as
`remove_file`; its failure is converted to `Error::Own`
(crates/lib/src/error.rs). -/
def trashDelete (fsPaths : List (List Char)) (p : List Char) :
    Except MpError (List (List Char)) :=
  if p ∈ fsPaths then .ok (fsPaths.erase p)
  else .error (.own ("File not found".data))

/-- Embedding of `remove` (crates/cli/src/main.rs lines 158-165): if
`permanently` then `fs::remove_file(file_path)?` else
`trash::delete(file_path)?`.  There is no other code in the function: in
particular no extension check of `file_path`. -/
def remove (fsPaths : List (List Char)) (p : List Char) (permanently : Bool) :
    Except MpError (List (List Char)) :=
  if permanently then removeFile fsPaths p else trashDelete fsPaths p

/-- Failure of the archive extraction: a panic propagated from the
decoder, or the `"Failed to decode {path}"` error for the named entry. -/
inductive ExtractErr where
  | panicked : ExtractErr
  | decodeFail : List Char → ExtractErr
deriving DecidableEq

/-- The output file name `format!("{}.mobileprovision", info.uuid)` of a
successfully decoded entry; `[]` when the entry does not decode (unused
in that case). -/
def outName (parse : PlistParser) (bytes : List Nat) : List Char :=
  match Info.from_xml_data parse bytes with
  | .ok (some i) => i.uuid ++ dotMobileprovision
  | _ => []

/-- Embedding of `extract` (crates/cli/src/main.rs): iterate the archive
entries in order; skip entries whose name is not a `mobileprovision`
candidate; decode candidates with `Info::from_xml_data`, failing the
whole extraction with an error naming the entry when decoding returns
`None`; on success write the entry bytes under `<uuid>.mobileprovision`.
The result is the list of written files in order, paired with the
terminating error if one occurred (files written before the failure
remain written). -/
def extract (parse : PlistParser) :
    List (List Char × List Nat) → List (List Char × List Nat) × Option ExtractErr
  | [] => ([], none)
  | (name, bytes) :: rest =>
    if is_mobileprovision name then
      match Info.from_xml_data parse bytes with
      | .error _ => ([], some .panicked)
      | .ok none => ([], some (.decodeFail name))
      | .ok (some i) =>
        let r := extract parse rest
        ((i.uuid ++ dotMobileprovision, bytes) :: r.1, r.2)
    else extract parse rest

/-- Embedding of the index returned by `str::find('.')`
(crates/lib/src/profile.rs `bundle_id`): position of the first `.`. -/
def strFind : List Char → Char → Option Nat
  | [], _ => none
  | a :: rest, c =>
    if a = c then some 0 else (strFind rest c).map (fun n => n + 1)

/-- Embedding of `Info::bundle_id` on the raw identifier string:
`s.find('.').map(|i| &s[i + 1..])`. -/
def bundleId (s : List Char) : Option (List Char) :=
  (strFind s '.').map (fun n => s.drop (n + 1))

/-- Embedding of `Info::bundle_id` (crates/lib/src/profile.rs). -/
def Info.bundle_id (info : Info) : Option (List Char) :=
  bundleId info.app_identifier

/-- Model of `str::to_lowercase` (per-character lowercasing). -/
def lowercase (l : List Char) : List Char := l.map Char.toLower

/-- Embedding of `str::contains` for string patterns: some window of
`hay` equals `needle`. -/
def containsSubB (hay needle : List Char) : Bool :=
  (findSub hay needle).isSome

/-- Embedding of `Info::contains` (crates/lib/src/profile.rs): lowercase
the query once, then test whether the lowercased `name`,
`app_identifier` or `uuid` contains it. -/
def Info.contains (info : Info) (s : List Char) : Bool :=
  let l := lowercase s
  [info.name, info.app_identifier, info.uuid].any
    (fun item => containsSubB (lowercase item) l)

/-- A buffer whose only end-marker occurrence (at 0) ends at 8, before
the first start-marker occurrence (at 9): the locator slices `[9..8]`. -/
def panicBuffer1 : List Nat := "</plist>x<?xml version=".data.map Char.toNat

/-- Same shape as `panicBuffer1`, used for the safety claim. -/
def panicBuffer2 : List Nat := "</plist>!<?xml version=".data.map Char.toNat

/-- Same shape as `panicBuffer1`, used for the decoder claim. -/
def panicBuffer3 : List Nat := "</plist>z<?xml version=".data.map Char.toNat

/-- A buffer that is exactly a well-formed payload: start marker at 0,
end marker ending exactly at the buffer length. -/
def wholeBuffer : List Nat := "<?xml version=</plist>".data.map Char.toNat

/-- A well-formed payload embedded in binary garbage, the end marker
ending strictly before the buffer end. -/
def embeddedBuffer : List Nat := "zz<?xml version=Q</plist>ww".data.map Char.toNat

/-- The payload slice of `embeddedBuffer`. -/
def embeddedPayload : List Nat := "<?xml version=Q</plist>".data.map Char.toNat

/-- A buffer whose single end-marker occurrence ends strictly before the
buffer end, on which the two locator generations agree. -/
def agreeBuffer : List Nat := "<?xml version=</plist>x".data.map Char.toNat

/-- The record deserialized by `constParser`. -/
def constInfoDef : InfoDef := ⟨"u1".data, "n1".data, ⟨"T.app".data⟩, 3, 7⟩

/-- A concrete parser used by witnesses: every payload deserializes to
the same record. -/
def constParser : PlistParser := fun _ => some constInfoDef

/-- A concrete parser used by witnesses and counterexamples: every
payload fails to deserialize. -/
def noneParser : PlistParser := fun _ => none

/-- The record `constParser` makes `Info::from_xml_data` produce. -/
def constInfo : Info := ⟨"u1".data, "n1".data, "T.app".data, 3, 7⟩

/-- Witness path of a readable profile file. -/
def pathA : List Char := "a.mobileprovision".data

/-- Witness path of an unreadable profile file. -/
def pathB : List Char := "b.mobileprovision".data

/-- Witness filesystem: `pathA` holds a well-formed profile, every other
path fails to read with OS error 7. -/
def fsWitness : FileSystem := fun p =>
  if p = pathA then .ok embeddedBuffer else .error 7

/-- A filesystem on which every read fails with OS error 5. -/
def fsAllErr : FileSystem := fun _ => .error 5

/-- A parser used by the extraction witness: uuid `abc-123`. -/
def abcParser : PlistParser := fun _ => some
  ⟨"abc-123".data, "n".data, ⟨"T.app".data⟩, 0, 0⟩

/-- A path without the profile extension, used by the removal witness. -/
def pathTxtA : List Char := "a.txt".data

/-- A path without the profile extension, used by the removal
counterexample. -/
def pathTxtB : List Char := "b.txt".data

/-- Same shape as `panicBuffer1`, used for the scan-filter and
extraction counterexamples. -/
def panicBuffer4 : List Nat := "</plist>#<?xml version=".data.map Char.toNat

/-- A filesystem on which every read returns the panic-triggering
buffer. -/
def fsPanic : FileSystem := fun _ => .ok panicBuffer4

/-- The archive of the extraction witness: one candidate entry with a
well-formed payload and one `.txt` entry. -/
def archiveWitness : List (List Char × List Nat) :=
  [(pathA, embeddedBuffer), ("note.txt".data, "junk".data.map Char.toNat)]

theorem findAux_eq_none_iff {α : Type} [DecidableEq α] (data needle : List α) (n : Nat) :
    findAux data needle n = none ↔ ∀ j ≤ n, ¬ OccursAt data needle j := by
  induction n with
  | zero =>
    by_cases h : (data.drop 0).take needle.length = needle
    · simp only [findAux, if_pos h, reduceCtorEq, false_iff, not_forall]
      exact ⟨0, Nat.le_refl 0, fun hc => hc h⟩
    · simp only [findAux, if_neg h]
      constructor
      · intro _ j hj
        have : j = 0 := Nat.le_zero.mp hj
        subst this
        exact h
      · intro _; trivial
  | succ i ih =>
    cases hfa : findAux data needle i with
    | some j =>
      simp only [findAux, hfa, reduceCtorEq, false_iff, not_forall]
      have hne : ¬ (∀ j ≤ i, ¬ OccursAt data needle j) := by
        intro hall
        rw [← ih] at hall
        rw [hfa] at hall
        cases hall
      push_neg at hne
      obtain ⟨j', hj'le, hj'occ⟩ := hne
      exact ⟨j', Nat.le_succ_of_le hj'le, fun hc => hc hj'occ⟩
    | none =>
      have hprev := ih.mp hfa
      by_cases h : (data.drop (i + 1)).take needle.length = needle
      · simp only [findAux, hfa, if_pos h, reduceCtorEq, false_iff, not_forall]
        exact ⟨i + 1, Nat.le_refl _, fun hc => hc h⟩
      · simp only [findAux, hfa, if_neg h, true_iff]
        intro j hj
        rcases Nat.eq_or_lt_of_le hj with he | hlt
        · subst he
          exact h
        · exact hprev j (Nat.lt_succ_iff.mp hlt)

theorem findAux_eq_some_iff {α : Type} [DecidableEq α] (data needle : List α) (n : Nat) :
    ∀ j, (findAux data needle n = some j ↔
      OccursAt data needle j ∧ j ≤ n ∧ ∀ k < j, ¬ OccursAt data needle k) := by
  induction n with
  | zero =>
    intro j
    by_cases h : (data.drop 0).take needle.length = needle
    · simp only [findAux, if_pos h, Option.some.injEq]
      constructor
      · intro hs
        subst hs
        exact ⟨h, Nat.le_refl 0, fun k hk => absurd hk (Nat.not_lt_zero k)⟩
      · rintro ⟨_, hle, _⟩
        exact (Nat.le_zero.mp hle).symm
    · simp only [findAux, if_neg h, reduceCtorEq, false_iff]
      rintro ⟨hocc, hle, _⟩
      have : j = 0 := Nat.le_zero.mp hle
      subst this
      exact h hocc
  | succ i ih =>
    intro j
    cases hfa : findAux data needle i with
    | some j' =>
      have hprev := (ih j').mp hfa
      simp only [findAux, hfa, Option.some.injEq]
      constructor
      · intro hs
        subst hs
        exact ⟨hprev.1, Nat.le_succ_of_le hprev.2.1, hprev.2.2⟩
      · rintro ⟨hocc, _, hmin⟩
        rcases Nat.lt_trichotomy j' j with h1 | h1 | h1
        · exact absurd hprev.1 (hmin j' h1)
        · exact h1
        · exact absurd hocc (hprev.2.2 j h1)
    | none =>
      have hnone := (findAux_eq_none_iff data needle i).mp hfa
      by_cases h : (data.drop (i + 1)).take needle.length = needle
      · simp only [findAux, hfa, if_pos h, Option.some.injEq]
        constructor
        · intro hs
          subst hs
          exact ⟨h, Nat.le_refl _, fun k hk => hnone k (Nat.lt_succ_iff.mp hk)⟩
        · rintro ⟨hocc, hle, _⟩
          rcases Nat.eq_or_lt_of_le hle with h1 | h1
          · exact h1.symm
          · exact absurd hocc (hnone j (Nat.lt_succ_iff.mp h1))
      · simp only [findAux, hfa, if_neg h, reduceCtorEq, false_iff]
        rintro ⟨hocc, hle, _⟩
        rcases Nat.eq_or_lt_of_le hle with h1 | h1
        · subst h1
          exact h hocc
        · exact hnone j (Nat.lt_succ_iff.mp h1) hocc

theorem rfindAux_eq_none_iff {α : Type} [DecidableEq α] (data needle : List α) (n : Nat) :
    rfindAux data needle n = none ↔ ∀ j ≤ n, ¬ OccursAt data needle j := by
  induction n with
  | zero =>
    by_cases h : (data.drop 0).take needle.length = needle
    · simp only [rfindAux, if_pos h, reduceCtorEq, false_iff, not_forall]
      exact ⟨0, Nat.le_refl 0, fun hc => hc h⟩
    · simp only [rfindAux, if_neg h]
      constructor
      · intro _ j hj
        have : j = 0 := Nat.le_zero.mp hj
        subst this
        exact h
      · intro _; trivial
  | succ i ih =>
    by_cases h : (data.drop (i + 1)).take needle.length = needle
    · simp only [rfindAux, if_pos h, reduceCtorEq, false_iff, not_forall]
      exact ⟨i + 1, Nat.le_refl _, fun hc => hc h⟩
    · simp only [rfindAux, if_neg h]
      rw [ih]
      constructor
      · intro hall j hj
        rcases Nat.eq_or_lt_of_le hj with he | hlt
        · subst he
          exact h
        · exact hall j (Nat.lt_succ_iff.mp hlt)
      · intro hall j hj
        exact hall j (Nat.le_succ_of_le hj)

theorem rfindAux_eq_some_iff {α : Type} [DecidableEq α] (data needle : List α) (n : Nat) :
    ∀ j, (rfindAux data needle n = some j ↔
      OccursAt data needle j ∧ j ≤ n ∧ ∀ k ≤ n, j < k → ¬ OccursAt data needle k) := by
  induction n with
  | zero =>
    intro j
    by_cases h : (data.drop 0).take needle.length = needle
    · simp only [rfindAux, if_pos h, Option.some.injEq]
      constructor
      · intro hs
        subst hs
        exact ⟨h, Nat.le_refl 0,
          fun k hk hjk => absurd (Nat.lt_of_lt_of_le hjk hk) (Nat.lt_irrefl 0)⟩
      · rintro ⟨_, hle, _⟩
        exact (Nat.le_zero.mp hle).symm
    · simp only [rfindAux, if_neg h, reduceCtorEq, false_iff]
      rintro ⟨hocc, hle, _⟩
      have : j = 0 := Nat.le_zero.mp hle
      subst this
      exact h hocc
  | succ i ih =>
    intro j
    by_cases h : (data.drop (i + 1)).take needle.length = needle
    · simp only [rfindAux, if_pos h, Option.some.injEq]
      constructor
      · intro hs
        subst hs
        exact ⟨h, Nat.le_refl _,
          fun k hk hjk => absurd (Nat.lt_of_lt_of_le hjk hk) (Nat.lt_irrefl _)⟩
      · rintro ⟨hocc, hle, hmax⟩
        rcases Nat.eq_or_lt_of_le hle with h1 | h1
        · exact h1.symm
        · exact absurd h (hmax (i + 1) (Nat.le_refl _) h1)
    · simp only [rfindAux, if_neg h]
      rw [ih j]
      constructor
      · rintro ⟨hocc, hle, hmax⟩
        refine ⟨hocc, Nat.le_succ_of_le hle, fun k hk hjk => ?_⟩
        rcases Nat.eq_or_lt_of_le hk with he | hlt
        · subst he
          exact h
        · exact hmax k (Nat.lt_succ_iff.mp hlt) hjk
      · rintro ⟨hocc, hle, hmax⟩
        have hjne : j ≠ i + 1 := by
          intro hc
          subst hc
          exact h hocc
        have hjle : j ≤ i := Nat.lt_succ_iff.mp (Nat.lt_of_le_of_ne hle hjne)
        exact ⟨hocc, hjle, fun k hk hjk => hmax k (Nat.le_succ_of_le hk) hjk⟩

theorem occursAt_add_le {α : Type} {data needle : List α} {i : Nat}
    (hne : needle ≠ []) (h : OccursAt data needle i) :
    i + needle.length ≤ data.length := by
  have hlen := congrArg List.length h
  rw [List.length_take, List.length_drop] at hlen
  have hpos : 0 < needle.length := List.length_pos.mpr hne
  omega

theorem occursAt_le_length {α : Type} {data needle : List α} {i : Nat}
    (hne : needle ≠ []) (h : OccursAt data needle i) : i ≤ data.length := by
  have h1 := occursAt_add_le hne h
  have h2 : 0 < needle.length := List.length_pos.mpr hne
  omega

theorem findSub_eq_some_iff {α : Type} [DecidableEq α] (data needle : List α)
    (hne : needle ≠ []) (j : Nat) :
    findSub data needle = some j ↔ FirstOcc data needle j := by
  unfold findSub FirstOcc
  rw [findAux_eq_some_iff]
  constructor
  · rintro ⟨h1, _, h3⟩
    exact ⟨h1, h3⟩
  · rintro ⟨h1, h3⟩
    exact ⟨h1, occursAt_le_length hne h1, h3⟩

theorem findSub_eq_none_iff {α : Type} [DecidableEq α] (data needle : List α)
    (hne : needle ≠ []) :
    findSub data needle = none ↔ ∀ j, ¬ OccursAt data needle j := by
  unfold findSub
  rw [findAux_eq_none_iff]
  constructor
  · intro h j hocc
    exact h j (occursAt_le_length hne hocc) hocc
  · intro h j _
    exact h j

theorem rfindSub_eq_some_iff {α : Type} [DecidableEq α] (data needle : List α)
    (hne : needle ≠ []) (j : Nat) :
    rfindSub data needle = some j ↔ LastOcc data needle j := by
  unfold rfindSub LastOcc
  rw [rfindAux_eq_some_iff]
  constructor
  · rintro ⟨h1, _, h3⟩
    refine ⟨h1, fun k hk hocc => ?_⟩
    exact h3 k (occursAt_le_length hne hocc) hk hocc
  · rintro ⟨h1, h2⟩
    exact ⟨h1, occursAt_le_length hne h1, fun k _ hk => h2 k hk⟩

theorem rfindSub_eq_none_iff {α : Type} [DecidableEq α] (data needle : List α)
    (hne : needle ≠ []) :
    rfindSub data needle = none ↔ ∀ j, ¬ OccursAt data needle j := by
  unfold rfindSub
  rw [rfindAux_eq_none_iff]
  constructor
  · intro h j hocc
    exact h j (occursAt_le_length hne hocc) hocc
  · intro h j _
    exact h j

theorem startMarker_ne_nil : startMarker ≠ [] := by decide

theorem endMarker_ne_nil : endMarker ≠ [] := by decide

theorem plistFind_none_left (data : List Nat)
    (h : findSub data startMarker = none) :
    plistExtractor.find data = .ok none := by
  unfold plistExtractor.find
  rw [h]

theorem plistFind_none_right (data : List Nat)
    (h : rfindSub data endMarker = none) :
    plistExtractor.find data = .ok none := by
  unfold plistExtractor.find
  rw [h]
  cases hs : findSub data startMarker <;> simp

theorem plistFind_eq_both (data : List Nat) (s e0 : Nat)
    (h1 : findSub data startMarker = some s)
    (h2 : rfindSub data endMarker = some e0) :
    plistExtractor.find data =
      if e0 + endMarker.length ≤ data.length then
        (if s ≤ e0 + endMarker.length then
          .ok (some (sliceBytes data s (e0 + endMarker.length)))
        else .error ())
      else .ok none := by
  unfold plistExtractor.find
  rw [h1, h2]
  rfl

theorem sliceBytes_roundtrip (data : List Nat) (s e : Nat)
    (h1 : s ≤ e) (h2 : e ≤ data.length) :
    data = data.take s ++ sliceBytes data s e ++ data.drop e := by
  unfold sliceBytes
  have hdrop : data.drop s = (data.drop s).take (e - s) ++ data.drop e := by
    conv_lhs => rw [← List.take_append_drop (e - s) (data.drop s)]
    congr 1
    rw [List.drop_drop]
    congr 1
    omega
  calc data = data.take s ++ data.drop s := (List.take_append_drop s data).symm
    _ = data.take s ++ ((data.drop s).take (e - s) ++ data.drop e) := by rw [← hdrop]
    _ = data.take s ++ (data.drop s).take (e - s) ++ data.drop e := by
          rw [List.append_assoc]

/-- C1 (amended).  Characterization of the payload locator
`plist_extractor::find`: if either marker is absent the result is `none`;
if `s` is the first start-marker occurrence and `e0` the last end-marker
occurrence then, writing `e = e0 + 8` for the end offset (which never
exceeds the buffer length), the locator returns the half-open slice
`[s, e)` whenever `s ≤ e`, and re-slicing the buffer with that range
reproduces exactly those bytes (`data = take s ++ slice ++ drop e`);
when `e < s` the slice operation panics instead of returning.  The
original claim asserted `Some` for every buffer containing both markers;
the panic case refutes it. -/
theorem plist_find_amended (data : List Nat) :
    (((∀ i, ¬ OccursAt data startMarker i) ∨ (∀ i, ¬ OccursAt data endMarker i)) →
        plistExtractor.find data = .ok none)
  ∧ (∀ s e0, FirstOcc data startMarker s → LastOcc data endMarker e0 →
      e0 + endMarker.length ≤ data.length
      ∧ (s ≤ e0 + endMarker.length →
          plistExtractor.find data
              = .ok (some (sliceBytes data s (e0 + endMarker.length)))
          ∧ data = data.take s ++ sliceBytes data s (e0 + endMarker.length)
                ++ data.drop (e0 + endMarker.length))
      ∧ (e0 + endMarker.length < s → plistExtractor.find data = .error ())) := by
  constructor
  · intro h
    rcases h with h | h
    · exact plistFind_none_left data
        ((findSub_eq_none_iff data startMarker startMarker_ne_nil).mpr h)
    · exact plistFind_none_right data
        ((rfindSub_eq_none_iff data endMarker endMarker_ne_nil).mpr h)
  · intro s e0 hf hl
    have hs := (findSub_eq_some_iff data startMarker startMarker_ne_nil s).mpr hf
    have he := (rfindSub_eq_some_iff data endMarker endMarker_ne_nil e0).mpr hl
    have hbound : e0 + endMarker.length ≤ data.length :=
      occursAt_add_le endMarker_ne_nil hl.1
    have hmain := plistFind_eq_both data s e0 hs he
    rw [if_pos hbound] at hmain
    refine ⟨hbound, ?_, ?_⟩
    · intro hse
      rw [if_pos hse] at hmain
      exact ⟨hmain, sliceBytes_roundtrip data s _ hse hbound⟩
    · intro hlt
      rw [if_neg (Nat.not_le.mpr hlt)] at hmain
      exact hmain

/-- C1 witness: on a payload embedded in garbage the locator returns
exactly the slice from the start marker to the end of the end marker. -/
theorem plist_find_amended_witness :
    plistExtractor.find embeddedBuffer = .ok (some embeddedPayload) := by
  have hf : FirstOcc embeddedBuffer startMarker 2 :=
    (findSub_eq_some_iff embeddedBuffer startMarker startMarker_ne_nil 2).mp (by decide)
  have hl : LastOcc embeddedBuffer endMarker 17 :=
    (rfindSub_eq_some_iff embeddedBuffer endMarker endMarker_ne_nil 17).mp (by decide)
  have h := (((plist_find_amended embeddedBuffer).2 2 17 hf hl).2.1 (by decide)).1
  exact h.trans (by decide)

/-- C1 counterexample: `panicBuffer1` contains both markers and the end
offset (8) does not exceed the buffer length, so the claim as stated
requires `Some`; the code panics (slices `[9..8]`) instead. -/
theorem plist_find_claim_false :
    OccursAt panicBuffer1 startMarker 9 ∧ OccursAt panicBuffer1 endMarker 0
      ∧ 0 + endMarker.length ≤ panicBuffer1.length
      ∧ plistExtractor.find panicBuffer1 = .error () := by decide

/-- C2: the payload locator is not total: on `panicBuffer2` (both markers
present, but the last end-marker occurrence ends at offset 8, before the
first start-marker occurrence at 9) the source slices `&data[9..8]`,
which panics, instead of returning an `Option`. -/
theorem plist_find_panic_input :
    OccursAt panicBuffer2 startMarker 9 ∧ OccursAt panicBuffer2 endMarker 0
      ∧ plistExtractor.find panicBuffer2 = .error () := by decide

/-- C3 (amended).  On every buffer where the payload locator returns
(does not panic), `Info::from_xml_data` is all-or-nothing: `none` when
the locator finds no payload or the payload fails to deserialize, and a
record with all five fields populated from the parsed document when it
does; no partially populated record is ever produced. -/
theorem from_xml_data_amended (parse : PlistParser) (data : List Nat)
    (o : Option (List Nat)) (h : plistExtractor.find data = .ok o) :
    (o = none → Info.from_xml_data parse data = .ok none)
  ∧ (∀ xml, o = some xml →
      ((parse xml = none → Info.from_xml_data parse data = .ok none)
      ∧ ∀ d, parse xml = some d →
          Info.from_xml_data parse data =
            .ok (some ⟨d.uuid, d.name, d.entitlements.app_identifier,
              d.creation_date, d.expiration_date⟩))) := by
  constructor
  · intro ho
    subst ho
    simp [Info.from_xml_data, h]
  · intro xml ho
    subst ho
    constructor
    · intro hp
      simp [Info.from_xml_data, h, hp]
    · intro d hd
      simp [Info.from_xml_data, h, hd]

/-- C3 witness: a well-formed buffer with a succeeding parser yields the
fully populated record. -/
theorem from_xml_data_amended_witness :
    Info.from_xml_data constParser embeddedBuffer = .ok (some constInfo) := by
  have h := ((from_xml_data_amended constParser embeddedBuffer
      (some embeddedPayload) (by decide)).2 embeddedPayload rfl).2
      constInfoDef (by decide)
  exact h.trans (by decide)

/-- C3 counterexample: the claim asserts `from_xml_data` returns a full
record or `none` for every byte buffer; on `panicBuffer3` it panics
(propagating the locator's out-of-bounds slice), whatever the parser. -/
theorem from_xml_data_claim_false :
    Info.from_xml_data noneParser panicBuffer3 = .error () := by decide

/-- C9 (amended).  The historical work-stealing locator `find_plist`
(src/lib.rs) and the current `plist_extractor::find` agree on every
buffer whose end marker occurs exactly once (first and last occurrence
coincide) with its end offset strictly below the buffer length; outside
that common domain they differ (first- versus last-occurrence of the end
marker, strict `end < len` versus inclusive `end <= len` check), so the
historical rewrite does not implement the same payload contract. -/
theorem locators_agree (data : List Nat) (e0 : Nat)
    (h1 : findSub data endMarker = some e0)
    (h2 : rfindSub data endMarker = some e0)
    (h3 : e0 + endMarker.length < data.length) :
    oldFindPlist data = plistExtractor.find data := by
  unfold oldFindPlist plistExtractor.find
  rw [h1, h2]
  cases hs : findSub data startMarker with
  | none => rfl
  | some s =>
    show (if e0 + endMarker.length < data.length then
            (if s ≤ e0 + endMarker.length then
              Except.ok (some (sliceBytes data s (e0 + endMarker.length)))
            else Except.error ())
          else Except.ok none)
        = (if e0 + endMarker.length ≤ data.length then
            (if s ≤ e0 + endMarker.length then
              Except.ok (some (sliceBytes data s (e0 + endMarker.length)))
            else Except.error ())
          else Except.ok none)
    rw [if_pos h3, if_pos (Nat.le_of_lt h3)]

/-- C9 witness: on a buffer with a unique end marker ending strictly
before the buffer end, the two locator generations coincide. -/
theorem locators_agree_witness :
    oldFindPlist agreeBuffer = plistExtractor.find agreeBuffer :=
  locators_agree agreeBuffer 14 (by decide) (by decide) (by decide)

/-- C9 counterexample: on the buffer that is exactly a well-formed
payload the historical `find_plist` (strict `end_i < data.len()` check,
first end-marker occurrence) returns `None` while the current locator
returns the whole payload, so the rewrites do not produce the same
payload slice. -/
theorem rewrites_claim_false :
    oldFindPlist wholeBuffer = .ok none
      ∧ plistExtractor.find wholeBuffer = .ok (some wholeBuffer) := by decide

theorem length_filterMap_eq_countP {α β : Type} (g : α → Option β) (l : List α) :
    (l.filterMap g).length = l.countP (fun a => (g a).isSome) := by
  induction l with
  | nil => rfl
  | cons a l ih =>
    cases hg : g a <;>
      simp [List.filterMap_cons, hg, List.countP_cons, ih]

theorem filter_eq_filterMap (fs : FileSystem) (parse : PlistParser)
    (f : Profile → Bool) :
    ∀ paths : List (List Char),
      (∀ p ∈ paths, exceptOk (Profile.from_file fs parse p) = true) →
      filter fs parse f paths = .ok (paths.filterMap (keep fs parse f)) := by
  intro paths
  induction paths with
  | nil => intro _; rfl
  | cons p rest ih =>
    intro h
    have hp := h p (List.mem_cons_self p rest)
    have hrest := ih (fun q hq => h q (List.mem_cons_of_mem p hq))
    cases hpf : Profile.from_file fs parse p with
    | error u =>
      rw [hpf] at hp
      simp [exceptOk] at hp
    | ok r =>
      cases r with
      | ok pr =>
        by_cases hf : f pr <;>
          simp [filter, hpf, hrest, List.filterMap_cons, keep, hf]
      | error e =>
        simp [filter, hpf, hrest, List.filterMap_cons, keep]

/-- C4.  The concurrent scan-filter engine, as the denotation of the
rayon pipeline in `filter` (crates/lib/src/lib.rs): provided no unit of
work panics, the engine never returns an error; the result is exactly the
per-path `keep` contributions (decode success and predicate satisfaction;
decode and read failures are dropped silently), its length counts exactly
the paths whose file decodes and satisfies the predicate, membership is
exactly the decoded-and-kept profiles of the input paths, and permuting
the path list permutes the result — the result set is independent of the
enumeration order. -/
theorem filter_spec (fs : FileSystem) (parse : PlistParser) (f : Profile → Bool)
    (paths : List (List Char))
    (h : ∀ p ∈ paths, exceptOk (Profile.from_file fs parse p) = true) :
    filter fs parse f paths = .ok (paths.filterMap (keep fs parse f))
  ∧ (paths.filterMap (keep fs parse f)).length
      = paths.countP (fun p => (keep fs parse f p).isSome)
  ∧ (∀ pr, pr ∈ paths.filterMap (keep fs parse f)
      ↔ ∃ p ∈ paths, keep fs parse f p = some pr)
  ∧ (∀ paths2, paths.Perm paths2 →
      filter fs parse f paths2 = .ok (paths2.filterMap (keep fs parse f))
      ∧ (paths.filterMap (keep fs parse f)).Perm
          (paths2.filterMap (keep fs parse f))) := by
  refine ⟨filter_eq_filterMap fs parse f paths h, length_filterMap_eq_countP _ _,
    ?_, ?_⟩
  · intro pr
    exact List.mem_filterMap
  · intro paths2 hperm
    have h2 : ∀ p ∈ paths2, exceptOk (Profile.from_file fs parse p) = true :=
      fun p hp => h p (hperm.symm.subset hp)
    exact ⟨filter_eq_filterMap fs parse f paths2 h2, hperm.filterMap _⟩

/-- C4 witness: two paths, one holding a well-formed profile and one
whose read fails; with the always-true predicate the scan returns exactly
the one decoded profile and no error. -/
theorem filter_spec_witness :
    filter fsWitness constParser (fun _ => true) [pathA, pathB]
      = .ok [⟨pathA, constInfo⟩] := by
  have h := (filter_spec fsWitness constParser (fun _ => true)
      [pathA, pathB] (by decide)).1
  exact h.trans (by decide)

/-- C5 (amended).  The removal operation performs no extension
re-validation: for every filesystem state and every path — whatever its
extension — `remove` simply attempts the deletion, succeeding (and
removing the file) when the file exists and failing only with the
deletion error when it does not; it never returns a validation error
(the crate's error type has no validation variant). -/
theorem remove_no_validation (fsPaths : List (List Char)) (p : List Char)
    (perm : Bool) :
    (p ∈ fsPaths → remove fsPaths p perm = .ok (fsPaths.erase p))
  ∧ (p ∉ fsPaths → ∃ e, remove fsPaths p perm = .error e) := by
  constructor
  · intro hmem
    cases perm <;> simp [remove, removeFile, trashDelete, hmem]
  · intro hmem
    cases perm <;> simp [remove, removeFile, trashDelete, hmem]

/-- C5 witness: removing an existing `.txt` path succeeds and deletes
the file. -/
theorem remove_no_validation_witness :
    remove [pathTxtA] pathTxtA true = .ok [] := by
  have h := (remove_no_validation [pathTxtA] pathTxtA true).1 (by decide)
  exact h.trans (by decide)

/-- C5 counterexample: the claim requires removal of a path without the
profile extension to fail with a validation error and leave the
filesystem unchanged; `remove` deletes `b.txt` and returns `Ok` under
both deletion policies. -/
theorem remove_claim_false :
    is_mobileprovision pathTxtB = false
      ∧ remove [pathTxtB] pathTxtB true = .ok []
      ∧ remove [pathTxtB] pathTxtB false = .ok [] := by decide

/-- C6 (amended).  An I/O read failure is surfaced by the single-file
operation `Profile::from_file` (as `Error::Io`), but inside the bulk scan
`filter` the same failing path is silently dropped — the scan returns
`Ok` without the path and without reporting the error. -/
theorem bulk_scan_drops_read_errors (fs : FileSystem) (parse : PlistParser)
    (p : List Char) (e : Nat) (f : Profile → Bool) (h : fs p = .error e) :
    Profile.from_file fs parse p = .ok (.error (.ioError e))
  ∧ filter fs parse f [p] = .ok [] := by
  have h1 : Profile.from_file fs parse p = .ok (.error (.ioError e)) := by
    unfold Profile.from_file
    rw [h]
  refine ⟨h1, ?_⟩
  simp [filter, h1]

/-- C6 witness: a read failing with OS error 5 is surfaced by
`Profile::from_file`. -/
theorem bulk_scan_drops_read_errors_witness :
    Profile.from_file fsAllErr noneParser pathA = .ok (.error (.ioError 5)) :=
  (bulk_scan_drops_read_errors fsAllErr noneParser pathA 5 (fun _ => true) rfl).1

/-- C6 counterexample: the claim requires a failing read during a bulk
scan to be reported to the caller; the scan over one unreadable path
returns `Ok []`, silently dropping the path and its I/O error. -/
theorem bulk_scan_claim_false :
    fsAllErr pathA = .error 5
      ∧ filter fsAllErr noneParser (fun _ => true) [pathA] = .ok [] := by decide

theorem extract_all_ok (parse : PlistParser) :
    ∀ entries : List (List Char × List Nat),
      (∀ e ∈ entries, is_mobileprovision e.1 = true →
          exceptOk (Info.from_xml_data parse e.2) = true) →
      (∀ e ∈ entries, is_mobileprovision e.1 = true →
          Info.from_xml_data parse e.2 ≠ .ok none) →
      extract parse entries =
        ((entries.filter (fun e => is_mobileprovision e.1)).map
            (fun e => (outName parse e.2, e.2)), none) := by
  intro entries
  induction entries with
  | nil => intro _ _; rfl
  | cons a rest ih =>
    intro hnp hok
    obtain ⟨name, bytes⟩ := a
    have hrest := ih (fun e he hm => hnp e (List.mem_cons_of_mem _ he) hm)
      (fun e he hm => hok e (List.mem_cons_of_mem _ he) hm)
    by_cases hm : is_mobileprovision name = true
    · have hini := hnp (name, bytes) (List.mem_cons_self _ _) hm
      have hok1 := hok (name, bytes) (List.mem_cons_self _ _) hm
      cases hfd : Info.from_xml_data parse bytes with
      | error u =>
        rw [hfd] at hini
        simp [exceptOk] at hini
      | ok o =>
        cases o with
        | none => exact absurd hfd hok1
        | some i =>
          simp [extract, hm, hfd, hrest, outName, List.filter_cons]
    · simp only [Bool.not_eq_true] at hm
      simp [extract, hm, hrest, List.filter_cons]

theorem extract_fails_at (parse : PlistParser) :
    ∀ pre : List (List Char × List Nat), ∀ name : List Char,
      ∀ bytes : List Nat, ∀ post : List (List Char × List Nat),
      (∀ e ∈ pre, is_mobileprovision e.1 = true →
          exceptOk (Info.from_xml_data parse e.2) = true) →
      (∀ e ∈ pre, is_mobileprovision e.1 = true →
          Info.from_xml_data parse e.2 ≠ .ok none) →
      is_mobileprovision name = true →
      Info.from_xml_data parse bytes = .ok none →
      extract parse (pre ++ (name, bytes) :: post) =
        ((pre.filter (fun e => is_mobileprovision e.1)).map
            (fun e => (outName parse e.2, e.2)),
          some (.decodeFail name)) := by
  intro pre
  induction pre with
  | nil =>
    intro name bytes post _ _ hm hfd
    simp [extract, hm, hfd]
  | cons a pre' ih =>
    intro name bytes post hnp hok hm hfd
    obtain ⟨nm, bs⟩ := a
    have hrest := ih name bytes post
      (fun e he hm' => hnp e (List.mem_cons_of_mem _ he) hm')
      (fun e he hm' => hok e (List.mem_cons_of_mem _ he) hm') hm hfd
    by_cases hma : is_mobileprovision nm = true
    · have hini := hnp (nm, bs) (List.mem_cons_self _ _) hma
      have hok1 := hok (nm, bs) (List.mem_cons_self _ _) hma
      cases hfa : Info.from_xml_data parse bs with
      | error u =>
        rw [hfa] at hini
        simp [exceptOk] at hini
      | ok o =>
        cases o with
        | none => exact absurd hfa hok1
        | some i =>
          simp [extract, hma, hfa, hrest, outName, List.filter_cons]
    · simp only [Bool.not_eq_true] at hma
      simp [extract, hma, hrest, List.filter_cons]

/-- C7.  Archive extraction (crates/cli/src/main.rs `extract`), given
that no candidate entry makes the decoder panic: if every candidate
entry (name matching the profile-file convention) decodes, the
extraction succeeds and writes exactly, in order, one output per
candidate named `<uuid>.mobileprovision` with the entry's bytes —
non-candidate entries are ignored; and if some candidate fails to
decode, the whole extraction fails with the error naming the first such
entry, with only the outputs of the preceding candidates written. -/
theorem extract_spec (parse : PlistParser)
    (entries : List (List Char × List Nat))
    (hnp : ∀ e ∈ entries, is_mobileprovision e.1 = true →
        exceptOk (Info.from_xml_data parse e.2) = true) :
    ((∀ e ∈ entries, is_mobileprovision e.1 = true →
        Info.from_xml_data parse e.2 ≠ .ok none) →
      extract parse entries =
        ((entries.filter (fun e => is_mobileprovision e.1)).map
            (fun e => (outName parse e.2, e.2)), none))
  ∧ (∀ pre name bytes post,
      entries = pre ++ (name, bytes) :: post →
      (∀ e ∈ pre, is_mobileprovision e.1 = true →
          Info.from_xml_data parse e.2 ≠ .ok none) →
      is_mobileprovision name = true →
      Info.from_xml_data parse bytes = .ok none →
        extract parse entries =
          ((pre.filter (fun e => is_mobileprovision e.1)).map
              (fun e => (outName parse e.2, e.2)),
            some (.decodeFail name))) := by
  constructor
  · intro hok
    exact extract_all_ok parse entries hnp hok
  · intro pre name bytes post he hokpre hm hfd
    subst he
    exact extract_fails_at parse pre name bytes post
      (fun e he' hm' => hnp e (List.mem_append_left _ he') hm') hokpre hm hfd

/-- C7 witness: an archive with one valid candidate (uuid `abc-123`) and
one `.txt` entry extracts to exactly one output file named
`abc-123.mobileprovision`. -/
theorem extract_spec_witness :
    extract abcParser archiveWitness
      = ([("abc-123.mobileprovision".data, embeddedBuffer)], none) := by
  have h := (extract_spec abcParser archiveWitness (by decide)).1 (by decide)
  exact h.trans (by decide)

theorem strFind_eq_none_iff (l : List Char) (c : Char) :
    strFind l c = none ↔ c ∉ l := by
  induction l with
  | nil => simp [strFind]
  | cons a rest ih =>
    by_cases ha : a = c
    · subst ha
      simp [strFind]
    · simp only [strFind, if_neg ha, Option.map_eq_none', ih, List.mem_cons,
        not_or]
      constructor
      · intro h
        exact ⟨fun hc => ha hc.symm, h⟩
      · rintro ⟨_, h⟩
        exact h

theorem strFind_eq_some (l : List Char) (c : Char) :
    ∀ i, strFind l c = some i →
      ∃ pre post, l = pre ++ c :: post ∧ c ∉ pre ∧ pre.length = i := by
  induction l with
  | nil =>
    intro i h
    simp [strFind] at h
  | cons a rest ih =>
    intro i h
    by_cases ha : a = c
    · subst ha
      simp [strFind] at h
      exact ⟨[], rest, rfl, by simp, h⟩
    · simp only [strFind, if_neg ha, Option.map_eq_some'] at h
      obtain ⟨n, hn, hni⟩ := h
      obtain ⟨pre, post, hl, hpre, hlen⟩ := ih n hn
      refine ⟨a :: pre, post, by rw [hl]; rfl, ?_, by simp [hlen, hni]⟩
      intro hc
      rcases List.mem_cons.mp hc with hc | hc
      · exact ha hc.symm
      · exact hpre hc

theorem append_cons_drop (pre post : List Char) (c : Char) :
    (pre ++ c :: post).drop (pre.length + 1) = post := by
  induction pre with
  | nil => simp
  | cons a pre ih => simpa using ih

/-- C8.  `bundle_id` (crates/lib/src/profile.rs): for every identifier
string containing a `.` it returns exactly the substring strictly after
the first `.`; for strings without a `.` it returns `none`; and on
`Info` it is a pure function of the `app_identifier` field alone. -/
theorem bundle_id_spec (s : List Char) :
    (('.' ∈ s) → ∃ pre post, s = pre ++ '.' :: post ∧ '.' ∉ pre
        ∧ bundleId s = some post)
  ∧ ('.' ∉ s → bundleId s = none)
  ∧ (∀ i1 i2 : Info, i1.app_identifier = i2.app_identifier →
      Info.bundle_id i1 = Info.bundle_id i2) := by
  refine ⟨?_, ?_, ?_⟩
  · intro hmem
    cases hsf : strFind s '.' with
    | none => exact absurd hmem ((strFind_eq_none_iff s '.').mp hsf)
    | some i =>
      obtain ⟨pre, post, hl, hpre, hlen⟩ := strFind_eq_some s '.' i hsf
      refine ⟨pre, post, hl, hpre, ?_⟩
      unfold bundleId
      rw [hsf]
      simp only [Option.map_some', Option.some.injEq]
      rw [hl, ← hlen]
      exact append_cons_drop pre post '.'
  · intro hmem
    unfold bundleId
    rw [(strFind_eq_none_iff s '.').mpr hmem]
    rfl
  · intro i1 i2 h
    unfold Info.bundle_id
    rw [h]

/-- C8 witness: the three examples of the specification. -/
theorem bundle_id_spec_witness :
    bundleId ("12345ABCDE.com.example.app".data)
        = some ("com.example.app".data)
      ∧ bundleId ("12345ABCDE.*".data) = some ("*".data)
      ∧ bundleId ("12345ABCDE".data) = none :=
  ⟨by decide, by decide, (bundle_id_spec ("12345ABCDE".data)).2.1 (by decide)⟩

theorem findAux_nil {α : Type} [DecidableEq α] (hay : List α) (n : Nat) :
    findAux hay ([] : List α) n = some 0 := by
  induction n with
  | zero => simp [findAux]
  | succ i ih => simp [findAux, ih]

theorem findSub_isSome_iff {α : Type} [DecidableEq α] (hay needle : List α) :
    (findSub hay needle).isSome = true ↔ ∃ i, OccursAt hay needle i := by
  by_cases hne : needle = []
  · subst hne
    constructor
    · intro _
      exact ⟨0, by simp [OccursAt]⟩
    · intro _
      rw [findSub, findAux_nil]
      rfl
  · constructor
    · intro h
      cases hf : findSub hay needle with
      | none =>
        rw [hf] at h
        cases h
      | some j => exact ⟨j, ((findSub_eq_some_iff hay needle hne j).mp hf).1⟩
    · rintro ⟨i, hi⟩
      cases hf : findSub hay needle with
      | none => exact absurd hi ((findSub_eq_none_iff hay needle hne).mp hf i)
      | some j => rfl

/-- C10.  `Info::contains` (crates/lib/src/profile.rs) holds exactly when
the lowercased query occurs as a substring of the lowercased `name`,
`app_identifier` or `uuid`; in particular the empty query always
matches. -/
theorem contains_spec (info : Info) (s : List Char) :
    (Info.contains info s = true ↔
      ((∃ i, OccursAt (lowercase info.name) (lowercase s) i)
        ∨ (∃ i, OccursAt (lowercase info.app_identifier) (lowercase s) i)
        ∨ (∃ i, OccursAt (lowercase info.uuid) (lowercase s) i)))
  ∧ Info.contains info [] = true := by
  constructor
  · unfold Info.contains containsSubB
    simp only [List.any_cons, List.any_nil, Bool.or_eq_true, Bool.or_false]
    rw [findSub_isSome_iff, findSub_isSome_iff, findSub_isSome_iff]
  · unfold Info.contains containsSubB
    simp [lowercase, findSub, findAux_nil]

/-- C10 witness: a mixed-case query matching the `name` field. -/
theorem contains_spec_witness :
    Info.contains constInfo ("N1".data) = true :=
  (contains_spec constInfo ("N1".data)).1.mpr (Or.inl ⟨0, by decide⟩)

/-- C4 counterexample: the claim promises that for every path list the
engine returns exactly the decoded-and-matching set and never an error;
on a path whose file holds both markers in panic order the unit of work
panics and the scan aborts instead of returning a set. -/
theorem filter_claim_false :
    filter fsPanic noneParser (fun _ => true) [pathA] = .error () := by decide

/-- C7 counterexample: the claim promises that a candidate entry is
decoded and, on decode failure, the extraction fails with a descriptive
error naming the entry; on an entry whose bytes hold both markers in
panic order the decoder panics and extraction aborts without any named
error. -/
theorem extract_claim_false :
    extract abcParser [(pathA, panicBuffer4)] = ([], some .panicked) := by decide
